import Mathlib

/-!
Verification development for `core/parallel/disjoint_int_intervals.h`
(class `core::parallel::DisjointIntIntervals`).

The C++ class keeps a `std::map<KeyType, ValueType, ComparatorType>` whose
keys and values are both `std::pair<int, int>` intervals, and every entry
ever inserted has key = value.  We therefore model the registry state as the
in-order list of stored intervals, an interval being a pair `Int × Int`
(`.1` = `first` = lo, `.2` = `second` = hi).  All arithmetic in the header
is comparisons and copies of `int` values, so `Int` is an exact model.

Two versions of the insertion routine appear in the source:

* the active body of `DisjointIntIntervals::Insert` is a stub
  (`return true;` with the map untouched) — embedded as `Insert`;
* the original algorithm survives, commented out, in the same function
  body (the `equal_range` / merge / erase / reinsert loop) — embedded as
  `InsertDisabled`, with `std::map::equal_range` on the ordered key
  sequence rendered as the three-way `takeWhile`/`dropWhile` split that
  `lower_bound` / `upper_bound` compute on a sorted sequence of
  pairwise-disjoint intervals.
-/

namespace DisjointIntIntervals

/-- `ComparatorType::operator()` as written in the source: a three-way
comparison returning `-1` when `k1` strictly precedes `k2`
(`k1.second < k2.first`), `1` when it strictly follows
(`k2.second < k1.first`), and `0` otherwise (the intervals overlap). -/
def comparatorRaw (k1 k2 : Int × Int) : Int :=
  if k1.2 < k2.1 then -1
  else if k2.2 < k1.1 then 1
  else 0

/-- The value `ComparatorType::operator()` actually delivers to `std::map`:
the function is declared to return `bool`, so the C++ `int`→`bool`
conversion maps the three-way result to `true` iff it is nonzero. -/
def comparatorBool (k1 k2 : Int × Int) : Bool :=
  comparatorRaw k1 k2 != 0

/-- `DisjointIntIntervals::Merge_(combine_with, merged)`: mutates `*merged`;
if `merged->first == combine_with.second` it sets `merged->first` to
`combine_with.first`, otherwise it sets `merged->second` to
`combine_with.second`.  Returned here as the new value of `merged`. -/
def Merge_ (combine_with merged : Int × Int) : Int × Int :=
  if merged.1 = combine_with.2 then (combine_with.1, merged.2)
  else (merged.1, combine_with.2)

/-- `DisjointIntIntervals::Init()`: `intervals_.clear()` — the empty
registry state. -/
def Init : List (Int × Int) := []

/-- The active body of `DisjointIntIntervals::Insert`: `return true;`
with the map left untouched (the real algorithm below it is commented
out behind `// Fix me later!`). -/
def Insert (test_interval : Int × Int) (intervals : List (Int × Int)) :
    Bool × List (Int × Int) :=
  (true, intervals)

/-- Stored intervals strictly preceding `t` under the comparator:
the prefix of the in-order key sequence below `lower_bound(t)`,
i.e. the entries `s` with `s.second < t.first`. -/
def beforeRun (t : Int × Int) (l : List (Int × Int)) : List (Int × Int) :=
  l.takeWhile (fun s => decide (s.2 < t.1))

/-- The in-order key sequence from `lower_bound(t)` on. -/
def fromLower (t : Int × Int) (l : List (Int × Int)) : List (Int × Int) :=
  l.dropWhile (fun s => decide (s.2 < t.1))

/-- `equal_range(t)`: the run of stored intervals comparing equivalent to
`t`, i.e. between `lower_bound(t)` and `upper_bound(t)`.  An entry `s` is
below `upper_bound(t)` iff `¬(t.second < s.first)`, i.e. `s.1 ≤ t.2`. -/
def midRun (t : Int × Int) (l : List (Int × Int)) : List (Int × Int) :=
  (fromLower t l).takeWhile (fun s => decide (s.1 ≤ t.2))

/-- Stored intervals strictly following `t`: the suffix from
`upper_bound(t)` on. -/
def afterRun (t : Int × Int) (l : List (Int × Int)) : List (Int × Int) :=
  (fromLower t l).dropWhile (fun s => decide (s.1 ≤ t.2))

/-- The containment test performed on each interval of the matched run:
`current_it->first.first <= test_interval.first &&
 test_interval.second <= current_it->first.second`; `does_not_exist`
becomes `false` iff it holds for some matched entry. -/
def containsAny (t : Int × Int) (ms : List (Int × Int)) : Bool :=
  ms.any (fun s => decide (s.1 ≤ t.1) && decide (t.2 ≤ s.2))

/-- The merge loop accumulator: `merged` starts as `test_interval` and
`Merge_(current_it->first, &merged)` is applied to each matched entry in
key order. -/
def mergedOf (t : Int × Int) (ms : List (Int × Int)) : Int × Int :=
  ms.foldl (fun m s => Merge_ s m) t

/-- The commented-out body of `DisjointIntIntervals::Insert`:
if the map is empty, insert `test_interval` and return `true`;
otherwise query `equal_range(test_interval)`; if the range is empty,
insert `test_interval` and return `true`; otherwise fold `Merge_` over
the matched run (recording whether any matched entry fully contains
`test_interval`), erase the whole run, insert the merged interval in its
place, and return `does_not_exist`. -/
def InsertDisabled (t : Int × Int) (l : List (Int × Int)) :
    Bool × List (Int × Int) :=
  if l.isEmpty then (true, [t])
  else if (midRun t l).isEmpty then
    (true, beforeRun t l ++ t :: afterRun t l)
  else
    (!containsAny t (midRun t l),
     beforeRun t l ++ mergedOf t (midRun t l) :: afterRun t l)

/-- Running a sequence of claims through the commented-out implementation,
starting from the freshly initialized (empty) registry. -/
def runClaims (ops : List (Int × Int)) : List (Int × Int) :=
  ops.foldl (fun l t => (InsertDisabled t l).2) Init

/-- The interval well-formedness precondition `lo ≤ hi`. -/
abbrev Wf (s : Int × Int) : Prop := s.1 ≤ s.2

/-- Every stored interval is well-formed. -/
abbrev WfAll (l : List (Int × Int)) : Prop := ∀ s ∈ l, Wf s

/-- The in-order key sequence is strictly increasing under the comparator:
each entry ends strictly before the next begins. -/
abbrev Ordered (l : List (Int × Int)) : Prop :=
  l.Pairwise (fun a b => a.2 < b.1)

/-- The separation predicate of the claimed disjointness invariant:
a gap of at least one unclaimed unit between the two intervals. -/
abbrev SepGap (a b : Int × Int) : Prop := a.2 < b.1 - 1 ∨ b.2 < a.1 - 1

/-- Membership of a point in the coverage (the union of all stored
intervals). -/
abbrev covered (x : Int) (l : List (Int × Int)) : Prop :=
  ∃ s ∈ l, s.1 ≤ x ∧ x ≤ s.2

-- Sanity checks against the behaviour traced from the source.
example : InsertDisabled (3, 6) [(0, 10)] = (false, [(3, 10)]) := by decide
example : InsertDisabled (3, 8) [(0, 5)] = (true, [(3, 5)]) := by decide
example : runClaims [(0, 2), (5, 7), (10, 12)] = [(0, 2), (5, 7), (10, 12)] := by decide
example : InsertDisabled (1, 11) [(0, 2), (5, 7), (10, 12)] = (true, [(1, 12)]) := by decide
example : runClaims [(0, 0), (1, 1)] = [(0, 0), (1, 1)] := by decide
example : comparatorBool (0, 0) (2, 2) = true ∧ comparatorBool (2, 2) (0, 0) = true := by decide
example : Merge_ (3, 4) (0, 10) = (0, 4) := by decide

/-! ### Helper lemmas about the `equal_range` split -/

/-- Every entry of the prefix strictly preceding `t` ends before `t`
begins. -/
theorem beforeRun_lt {t : Int × Int} {l : List (Int × Int)} :
    ∀ b ∈ beforeRun t l, b.2 < t.1 := by
  intro b hb
  have hp := List.mem_takeWhile_imp hb
  simpa using hp

/-- In a sorted, well-formed key sequence, every entry from `lower_bound t`
on ends at or after `t.1`. -/
theorem fromLower_ge {t : Int × Int} {l : List (Int × Int)}
    (hOrd : Ordered l) (hWf : WfAll l) :
    ∀ r ∈ fromLower t l, t.1 ≤ r.2 := by
  induction l with
  | nil => intro r hr; simp [fromLower] at hr
  | cons a as ih =>
    rcases List.pairwise_cons.mp hOrd with ⟨hhead, htail⟩
    intro r hr
    rw [fromLower, List.dropWhile_cons] at hr
    split at hr
    · exact ih htail (fun s hs => hWf s (List.mem_cons_of_mem _ hs)) r hr
    · rename_i hcond
      have hcond2 : ¬ a.2 < t.1 := by simpa using hcond
      rcases List.mem_cons.mp hr with rfl | hr2
      · omega
      · have h1 := hhead r hr2
        have h2 := hWf r (List.mem_cons_of_mem _ hr2)
        omega

/-- In a sorted, well-formed sequence, every entry left over after
dropping those that begin at or before `t.2` begins strictly after
`t.2`. -/
theorem dropWhile_gt {t : Int × Int} {r : List (Int × Int)}
    (hOrd : Ordered r) (hWf : WfAll r) :
    ∀ a ∈ r.dropWhile (fun s => decide (s.1 ≤ t.2)), t.2 < a.1 := by
  induction r with
  | nil => intro a ha; simp at ha
  | cons x xs ih =>
    rcases List.pairwise_cons.mp hOrd with ⟨hhead, htail⟩
    intro a ha
    rw [List.dropWhile_cons] at ha
    split at ha
    · exact ih htail (fun s hs => hWf s (List.mem_cons_of_mem _ hs)) a ha
    · rename_i hcond
      have hcond2 : ¬ x.1 ≤ t.2 := by simpa using hcond
      rcases List.mem_cons.mp ha with rfl | ha2
      · omega
      · have h1 := hhead a ha2
        have h2 := hWf x (List.mem_cons_self _ _)
        omega

/-- Every entry strictly following `t` (from `upper_bound t` on) begins
strictly after `t.2`. -/
theorem afterRun_gt {t : Int × Int} {l : List (Int × Int)}
    (hOrd : Ordered l) (hWf : WfAll l) :
    ∀ a ∈ afterRun t l, t.2 < a.1 := by
  have hsub : (fromLower t l).Sublist l := List.dropWhile_sublist _
  exact dropWhile_gt (hOrd.sublist hsub) (fun s hs => hWf s (hsub.subset hs))

/-- The matched run is contained in the suffix from `lower_bound t`. -/
theorem midRun_subset_fromLower {t : Int × Int} {l : List (Int × Int)} :
    ∀ s ∈ midRun t l, s ∈ fromLower t l :=
  fun s hs => (List.takeWhile_sublist _).subset hs

/-- Every matched entry begins at or before `t.2`. -/
theorem midRun_le {t : Int × Int} {l : List (Int × Int)} :
    ∀ s ∈ midRun t l, s.1 ≤ t.2 := by
  intro s hs
  have hp := List.mem_takeWhile_imp hs
  simpa using hp

/-- Every matched entry ends at or after `t.1`. -/
theorem midRun_ge {t : Int × Int} {l : List (Int × Int)}
    (hOrd : Ordered l) (hWf : WfAll l) :
    ∀ s ∈ midRun t l, t.1 ≤ s.2 :=
  fun s hs => fromLower_ge hOrd hWf s (midRun_subset_fromLower s hs)

/-- The three-way split reassembles to the original key sequence. -/
theorem split_eq (t : Int × Int) (l : List (Int × Int)) :
    beforeRun t l ++ (midRun t l ++ afterRun t l) = l := by
  simp only [beforeRun, fromLower, midRun, afterRun,
    List.takeWhile_append_dropWhile]

/-! ### The merge accumulator -/

/-- The lower endpoint of the merge accumulator is the lower endpoint of
`t` or of one of the merged entries. -/
theorem mergedOf_fst (t : Int × Int) (ms : List (Int × Int)) :
    (mergedOf t ms).1 = t.1 ∨ ∃ s ∈ ms, (mergedOf t ms).1 = s.1 := by
  induction ms generalizing t with
  | nil => exact Or.inl rfl
  | cons s ms ih =>
    have hstep : mergedOf t (s :: ms) = mergedOf (Merge_ s t) ms := rfl
    rw [hstep]
    rcases ih (Merge_ s t) with h | ⟨s2, hs2, h⟩
    · by_cases hc : t.1 = s.2
      · refine Or.inr ⟨s, List.mem_cons_self _ _, ?_⟩
        rw [h]; simp [Merge_, hc]
      · refine Or.inl ?_
        rw [h]; simp [Merge_, hc]
    · exact Or.inr ⟨s2, List.mem_cons_of_mem _ hs2, h⟩

/-- The upper endpoint of the merge accumulator is the upper endpoint of
`t` or of one of the merged entries. -/
theorem mergedOf_snd (t : Int × Int) (ms : List (Int × Int)) :
    (mergedOf t ms).2 = t.2 ∨ ∃ s ∈ ms, (mergedOf t ms).2 = s.2 := by
  induction ms generalizing t with
  | nil => exact Or.inl rfl
  | cons s ms ih =>
    have hstep : mergedOf t (s :: ms) = mergedOf (Merge_ s t) ms := rfl
    rw [hstep]
    rcases ih (Merge_ s t) with h | ⟨s2, hs2, h⟩
    · by_cases hc : t.1 = s.2
      · refine Or.inl ?_
        rw [h]; simp [Merge_, hc]
      · refine Or.inr ⟨s, List.mem_cons_self _ _, ?_⟩
        rw [h]; simp [Merge_, hc]
    · exact Or.inr ⟨s2, List.mem_cons_of_mem _ hs2, h⟩

/-- Folding `Merge_` over a sorted, well-formed run whose entries all end
at or after `t.1` keeps the accumulator well-formed. -/
theorem mergedOf_wf {t : Int × Int} {ms : List (Int × Int)}
    (ht : Wf t) (hWf : WfAll ms) (hOrd : Ordered ms)
    (hlo : ∀ s ∈ ms, t.1 ≤ s.2) : Wf (mergedOf t ms) := by
  induction ms generalizing t with
  | nil => exact ht
  | cons s ms ih =>
    rcases List.pairwise_cons.mp hOrd with ⟨hhead, htail⟩
    have hs : s.1 ≤ s.2 := hWf s (List.mem_cons_self _ _)
    have hts : t.1 ≤ s.2 := hlo s (List.mem_cons_self _ _)
    have hstep : mergedOf t (s :: ms) = mergedOf (Merge_ s t) ms := rfl
    rw [hstep]
    by_cases hc : t.1 = s.2
    · have hm : Merge_ s t = (s.1, t.2) := by simp [Merge_, hc]
      rw [hm]
      refine ih ?_ (fun s2 hs2 => hWf s2 (List.mem_cons_of_mem _ hs2)) htail ?_
      · show s.1 ≤ t.2
        omega
      · intro s2 hs2
        have h1 := hhead s2 hs2
        have h2 := hWf s2 (List.mem_cons_of_mem _ hs2)
        show s.1 ≤ s2.2
        omega
    · have hm : Merge_ s t = (t.1, s.2) := by simp [Merge_, hc]
      rw [hm]
      refine ih ?_ (fun s2 hs2 => hWf s2 (List.mem_cons_of_mem _ hs2)) htail ?_
      · show t.1 ≤ s.2
        exact hts
      · intro s2 hs2
        have h2 := hlo s2 (List.mem_cons_of_mem _ hs2)
        show t.1 ≤ s2.2
        exact h2

/-! ### Preservation of the registry invariant -/

/-- Replacing the matched run by a single well-formed interval that fits
strictly between the preceding prefix and the following suffix yields a
sorted, well-formed registry again. -/
theorem insert_step_inv {t x : Int × Int} {l : List (Int × Int)}
    (hOrd : Ordered l) (hWf : WfAll l) (hx : Wf x)
    (hbx : ∀ b ∈ beforeRun t l, b.2 < x.1)
    (hxa : ∀ a ∈ afterRun t l, x.2 < a.1) :
    Ordered (beforeRun t l ++ x :: afterRun t l) ∧
    WfAll (beforeRun t l ++ x :: afterRun t l) := by
  have hsplit := split_eq t l
  have hOrd2 : Ordered (beforeRun t l ++ (midRun t l ++ afterRun t l)) := by
    rw [hsplit]; exact hOrd
  rcases List.pairwise_append.mp hOrd2 with ⟨hOb, hOrest, hcross⟩
  rcases List.pairwise_append.mp hOrest with ⟨_, hOa, _⟩
  constructor
  · refine List.pairwise_append.mpr ⟨hOb, ?_, ?_⟩
    · exact List.pairwise_cons.mpr ⟨hxa, hOa⟩
    · intro b hb y hy
      rcases List.mem_cons.mp hy with rfl | hy2
      · exact hbx b hb
      · exact hcross b hb y (List.mem_append_right _ hy2)
  · intro s hs
    rcases List.mem_append.mp hs with hs1 | hs2
    · exact hWf s ((List.takeWhile_sublist _).subset hs1)
    · rcases List.mem_cons.mp hs2 with rfl | hs3
      · exact hx
      · refine hWf s ?_
        rw [← hsplit]
        exact List.mem_append_right _ (List.mem_append_right _ hs3)

/-- One step of the disabled insertion algorithm preserves sortedness and
well-formedness of the registry. -/
theorem InsertDisabled_preserves {t : Int × Int} {l : List (Int × Int)}
    (ht : Wf t) (hOrd : Ordered l) (hWf : WfAll l) :
    Ordered (InsertDisabled t l).2 ∧ WfAll (InsertDisabled t l).2 := by
  by_cases hl : l.isEmpty
  · have hle : l = [] := List.isEmpty_iff.mp hl
    subst hle
    refine ⟨?_, ?_⟩
    · simp [InsertDisabled]
    · intro s hs
      simp [InsertDisabled] at hs
      subst hs
      exact ht
  · by_cases hm : (midRun t l).isEmpty
    · have h2 : (InsertDisabled t l).2 = beforeRun t l ++ t :: afterRun t l := by
        simp [InsertDisabled, hl, hm]
      rw [h2]
      exact insert_step_inv hOrd hWf ht beforeRun_lt (afterRun_gt hOrd hWf)
    · have h2 : (InsertDisabled t l).2 =
          beforeRun t l ++ mergedOf t (midRun t l) :: afterRun t l := by
        simp [InsertDisabled, hl, hm]
      rw [h2]
      have hmsub : (midRun t l).Sublist l :=
        (List.takeWhile_sublist _).trans (List.dropWhile_sublist _)
      have hOm : Ordered (midRun t l) := hOrd.sublist hmsub
      have hWm : WfAll (midRun t l) := fun s hs => hWf s (hmsub.subset hs)
      have hmwf : Wf (mergedOf t (midRun t l)) :=
        mergedOf_wf ht hWm hOm (midRun_ge hOrd hWf)
      have hsplit := split_eq t l
      have hOrd2 : Ordered (beforeRun t l ++ (midRun t l ++ afterRun t l)) := by
        rw [hsplit]; exact hOrd
      rcases List.pairwise_append.mp hOrd2 with ⟨_, hOrest, hcross⟩
      rcases List.pairwise_append.mp hOrest with ⟨_, _, hcross2⟩
      refine insert_step_inv hOrd hWf hmwf ?_ ?_
      · intro b hb
        rcases mergedOf_fst t (midRun t l) with h | ⟨s, hsm, h⟩
        · rw [h]; exact beforeRun_lt b hb
        · rw [h]; exact hcross b hb s (List.mem_append_left _ hsm)
      · intro a ha
        rcases mergedOf_snd t (midRun t l) with h | ⟨s, hsm, h⟩
        · rw [h]; exact afterRun_gt hOrd hWf a ha
        · rw [h]; exact hcross2 s hsm a ha

/-- Folding the disabled insertion over any sequence of well-formed claims
preserves the registry invariant. -/
theorem foldl_inv (ops : List (Int × Int)) :
    ∀ l : List (Int × Int), (∀ t ∈ ops, Wf t) → Ordered l → WfAll l →
    Ordered (ops.foldl (fun l2 t => (InsertDisabled t l2).2) l) ∧
    WfAll (ops.foldl (fun l2 t => (InsertDisabled t l2).2) l) := by
  induction ops with
  | nil => intro l _ hOrd hWf; exact ⟨hOrd, hWf⟩
  | cons t ops ih =>
    intro l hops hOrd hWf
    have hstep := InsertDisabled_preserves (hops t (List.mem_cons_self _ _)) hOrd hWf
    exact ih _ (fun t2 ht2 => hops t2 (List.mem_cons_of_mem _ ht2)) hstep.1 hstep.2

/-- Any sequence of well-formed claims, run through the disabled
implementation from the empty registry, yields a sorted, well-formed
stored set. -/
theorem runClaims_inv (ops : List (Int × Int)) (h : ∀ t ∈ ops, Wf t) :
    Ordered (runClaims ops) ∧ WfAll (runClaims ops) :=
  foldl_inv ops Init h List.Pairwise.nil (fun s hs => absurd hs (List.not_mem_nil s))

/-! ### The claims -/

/-- C1 (as stated, refuted): touching intervals defeat the claimed
separation.  Claiming `[0,0]` and then `[1,1]` (both well-formed) from the
empty registry stores both as distinct entries, and the pair satisfies
neither `a.hi < b.lo - 1` nor `b.hi < a.lo - 1`. -/
theorem C1_touching_counterexample :
    (∀ t ∈ ([((0:Int), (0:Int)), (1, 1)] : List (Int × Int)), t.1 ≤ t.2) ∧
    ((0:Int), (0:Int)) ∈ runClaims [(0, 0), (1, 1)] ∧
    ((1:Int), (1:Int)) ∈ runClaims [(0, 0), (1, 1)] ∧
    ((0:Int), (0:Int)) ≠ ((1:Int), (1:Int)) ∧
    ¬ SepGap (0, 0) (1, 1) ∧ ¬ SepGap (1, 1) (0, 0) := by decide

/-- C1 (amended): after any finite sequence of `Insert` calls whose
arguments satisfy `lo ≤ hi`, starting from the initialized (empty)
registry, no two distinct stored intervals overlap: for distinct stored
`a`, `b`, either `a.hi < b.lo` or `b.hi < a.lo`.  (Touching intervals,
`a.hi + 1 = b.lo`, may both be stored, so the strict one-unit gap of the
original claim does not hold.) -/
theorem C1_stored_intervals_never_overlap (ops : List (Int × Int))
    (h : ∀ t ∈ ops, t.1 ≤ t.2) :
    ∀ a ∈ runClaims ops, ∀ b ∈ runClaims ops, a ≠ b →
      a.2 < b.1 ∨ b.2 < a.1 := by
  have hinv := runClaims_inv ops h
  have hp : (runClaims ops).Pairwise (fun a b : Int × Int => a.2 < b.1 ∨ b.2 < a.1) :=
    hinv.1.imp (fun hab => Or.inl hab)
  intro a ha b hb hne
  exact hp.forall (fun x y hxy => hxy.symm) ha hb hne

/-- C1 witness: instantiating the amended disjointness theorem on the
claim sequence `[0,5]`, `[20,25]`. -/
theorem C1_stored_intervals_never_overlap_witness :
    ((0:Int), (5:Int)).2 < ((20:Int), (25:Int)).1 ∨
    ((20:Int), (25:Int)).2 < ((0:Int), (5:Int)).1 :=
  C1_stored_intervals_never_overlap [(0, 5), (20, 25)] (by decide)
    (0, 5) (by decide) (20, 25) (by decide) (by decide)

/-- C2 (code bug, evaluated): with stored set `{[0,10]}` (reached by a
single claim from the empty registry), claiming the fully contained
`[3,6]` through the disabled implementation does return `false`, but the
stored set changes from `{[0,10]}` to `{[3,10]}` — the containing entry is
erased and replaced by the (wrongly) merged interval, so the stored set is
not left unchanged as the claim requires. -/
theorem C2_full_reclaim_changes_state :
    runClaims [((0:Int), (10:Int))] = [(0, 10)] ∧
    InsertDisabled (3, 6) [(0, 10)] = (false, [(3, 10)]) ∧
    ([((3:Int), (10:Int))] : List (Int × Int)) ≠ [(0, 10)] := by decide

/-- C3 (code bug, evaluated): with stored set `{[0,5]}`, claiming `[3,8]`
through the disabled implementation yields stored set `{[3,5]}`: the point
`0` was covered before the claim but is not after it, and the claimed
point `8` is not covered after it, so the union after the claim is neither
a superset of the union before nor equal to it plus `[3,8]`. -/
theorem C3_coverage_not_monotone :
    runClaims [((0:Int), (5:Int))] = [(0, 5)] ∧
    InsertDisabled (3, 8) [(0, 5)] = (true, [(3, 5)]) ∧
    covered 0 [((0:Int), (5:Int))] ∧
    ¬ covered 0 [((3:Int), (5:Int))] ∧
    ¬ covered 8 [((3:Int), (5:Int))] ∧ (3:Int) ≤ 8 := by decide

/-- C4: claiming any well-formed interval `[lo, hi]` on the freshly
initialized (empty) registry returns `true` and stores exactly that one
interval unchanged. -/
theorem C4_empty_first_claim (lo hi : Int) (h : lo ≤ hi) :
    InsertDisabled (lo, hi) Init = (true, [(lo, hi)]) := rfl

/-- C4 witness: the spec's own instance `claim(0,0)` on the empty
registry. -/
theorem C4_empty_first_claim_witness :
    InsertDisabled ((0:Int), (0:Int)) Init = (true, [(0, 0)]) :=
  C4_empty_first_claim 0 0 (by decide)

/-- C5 (code bug, evaluated): `ComparatorType::operator()` is declared
`bool` but returns `-1` / `1` / `0`; both `-1` and `1` convert to `true`,
so as the map's less-than predicate the comparator reports `true` in both
directions for the disjoint pair `(0,0)`, `(2,2)` — it is symmetric rather
than asymmetric, and `comp(b,a)` holds even though `b.hi < a.lo` is
false. -/
theorem C5_comparator_not_asymmetric :
    comparatorBool (0, 0) (2, 2) = true ∧
    comparatorBool (2, 2) (0, 0) = true ∧
    ¬ (((2:Int), (2:Int)).2 < ((0:Int), (0:Int)).1) := by decide

/-- C6 (as stated, refuted): the touching pair `a = [0,0]`, `b = [1,1]`
(`a.hi + 1 = b.lo`) is not classified as equivalent: the three-way
comparator returns `-1` (strictly less), because the strict-less test
`a.hi < b.lo` is true — not false — when the intervals touch. -/
theorem C6_touching_counterexample :
    ((0:Int), (0:Int)).2 + 1 = ((1:Int), (1:Int)).1 ∧
    comparatorRaw (0, 0) (1, 1) = -1 ∧
    comparatorRaw (0, 0) (1, 1) ≠ 0 ∧
    (((0:Int), (0:Int)).2 < ((1:Int), (1:Int)).1) := by decide

/-- C6 (amended): for every pair of intervals with `a.hi + 1 = b.lo`
(touching without overlapping), the three-way comparator classifies `a` as
strictly preceding `b` (it returns `-1`, not the `0` of equivalence),
because its strict-less test `a.hi < b.lo` is true when they touch. -/
theorem C6_touching_precedes (a b : Int × Int) (h : a.2 + 1 = b.1) :
    comparatorRaw a b = -1 := by
  have hlt : a.2 < b.1 := by omega
  simp [comparatorRaw, hlt]

/-- C6 witness: the touching pair `[0,0]`, `[1,1]`. -/
theorem C6_touching_precedes_witness :
    comparatorRaw ((0:Int), (0:Int)) ((1:Int), (1:Int)) = -1 :=
  C6_touching_precedes (0, 0) (1, 1) (by decide)

/-- C7 (code bug, evaluated): one merge step with the overlapped stored
interval `[3,4]` and accumulator `[0,10]` yields `[0,4]`: the upper bound
shrinks from `10` to `4` instead of staying at `max 10 4`, because the
else-branch of `Merge_` overwrites `merged.hi` with `s.hi`
unconditionally. -/
theorem C7_merge_step_shrinks :
    Merge_ (3, 4) (0, 10) = (0, 4) ∧
    (Merge_ ((3:Int), (4:Int)) (0, 10)).2 < max (10:Int) 4 ∧
    (3:Int) ≤ 4 ∧ (0:Int) ≤ 10 := by decide

/-- C8 (code bug, evaluated): with stored set `{[0,2], [5,7], [10,12]}`
(reachable by three claims from empty), claiming `[1,11]` through the
disabled implementation returns `true` and collapses the three entries to
the single interval `[1,12]` — not the claimed `[0,12]`: the left bound
`0` of the first overlapped entry is dropped by the faulty merge step. -/
theorem C8_multi_merge_drops_left_bound :
    runClaims [((0:Int), (2:Int)), (5, 7), (10, 12)] = [(0, 2), (5, 7), (10, 12)] ∧
    InsertDisabled (1, 11) [(0, 2), (5, 7), (10, 12)] = (true, [(1, 12)]) ∧
    ([((1:Int), (12:Int))] : List (Int × Int)) ≠ [(0, 12)] := by decide

/-- C9 (as stated, refuted): for the invalid interval `(5,3)` (`lo > hi`)
neither implementation fails loudly: the active stub returns the ordinary
success value `true` with the state untouched, and the disabled
implementation proceeds exactly as for valid input, storing `(5,3)`
unnormalized on the empty registry — there is no assertion and the result
type carries no error value. -/
theorem C9_no_failure_counterexample :
    InsertDisabled ((5:Int), (3:Int)) Init = (true, [(5, 3)]) ∧
    Insert ((5:Int), (3:Int)) Init = (true, Init) ∧
    (3:Int) < 5 := by decide

/-- C9 (amended): `Insert` performs no validation of the precondition
`lo ≤ hi`: for every interval with `lo > hi` the active implementation
returns `true` leaving the registry unchanged, and the disabled
implementation proceeds as with valid input, storing the invalid interval
unchanged on an empty registry; neither normalizes, swaps, asserts, or
reports an error. -/
theorem C9_no_precondition_check (lo hi : Int) (h : hi < lo) :
    InsertDisabled (lo, hi) Init = (true, [(lo, hi)]) ∧
    Insert (lo, hi) Init = (true, Init) :=
  ⟨rfl, rfl⟩

/-- C9 witness: the invalid interval `(5,4)`. -/
theorem C9_no_precondition_check_witness :
    InsertDisabled ((5:Int), (4:Int)) Init = (true, [(5, 4)]) ∧
    Insert ((5:Int), (4:Int)) Init = (true, Init) :=
  C9_no_precondition_check 5 4 (by decide)

/-- C10: the active `Insert` implementation is a stub: for every input
interval and every registry state it returns `true` and leaves the stored
interval list completely unchanged. -/
theorem C10_active_insert_is_stub (t : Int × Int) (l : List (Int × Int)) :
    Insert t l = (true, l) := rfl

end DisjointIntIntervals
